import Mathlib

/-!
# Verification of the stargz-snapshotter remote blob reader

This file is a shallow embedding of the core of `fs/remote/blob.go` from the
stargz-snapshotter repository: the lazy remote-blob reader with chunk-level
caching (`blob.ReadAt`, `blob.Cache`, `blob.Check`, `blob.Refresh`,
`blob.Close`, `walkChunks`, `bytesWriter`, and the region arithmetic
`floor` / `ceil` / `positive`).

Conventions of the embedding:
* Go `int64` values are modelled as `Int`; the byte offsets involved are
  well within `int64` range, so wrap-around is not modelled.
* Go's truncated integer division `/` and remainder `%` are `Int.tdiv` and
  `Int.tmod`.
* Byte buffers are modelled as functions `Int → Byte` together with an
  explicit length; a Go slice `p[a:b]` of a buffer `p` becomes the function
  `fun i => p (a + i)` with length `b - a`.
* Go `for` loops are embedded as structurally recursive functions driven by
  an explicit iteration bound that is provably at least the number of
  iterations the Go loop performs.
* External collaborators (the HTTP fetcher, the cache backend) are modelled
  by oracles recorded in the blob state: the fetcher serves bytes
  `fetcher.content`, succeeds iff `fetcher.fetchOK`, and its liveness check
  succeeds iff `fetcher.checkOK`; the cache maps a chunk region to an
  optional committed entry.
-/

/-- Byte values; their arithmetic is never used, only equality. -/
abbrev Byte := Nat

/-- `region` from blob.go: an inclusive byte range `[b, e]`. -/
structure region where
  b : Int
  e : Int
deriving DecidableEq

/-- `region.size()` from util.go as described by the spec: `e - b + 1`. -/
def region.size (r : region) : Int := r.e - r.b + 1

/-- `floor(n, unit)` from blob.go line 515: `(n / unit) * unit` with Go's
truncated division. -/
def floor (n unit : Int) : Int := (Int.tdiv n unit) * unit

/-- `ceil(n, unit)` from blob.go line 519: `(n/unit + 1) * unit` with Go's
truncated division. -/
def ceil (n unit : Int) : Int := (Int.tdiv n unit + 1) * unit

/-- `positive(n)` from blob.go line 523: `max(n, 0)`. -/
def positive (n : Int) : Int := if n < 0 then 0 else n

theorem positive_eq_max (n : Int) : positive n = max n 0 := by
  unfold positive
  rcases lt_or_le n 0 with h | h
  · simp [h, max_eq_right h.le]
  · simp [not_lt.mpr h, max_eq_left h]

theorem positive_nonneg (n : Int) : 0 ≤ positive n := by
  rw [positive_eq_max]; omega

theorem positive_of_nonneg {n : Int} (h : 0 ≤ n) : positive n = n := by
  rw [positive_eq_max]; omega

theorem positive_of_nonpos {n : Int} (h : n ≤ 0) : positive n = 0 := by
  rw [positive_eq_max]; omega

/-- `positive a - positive (-a) = a`: the two clampings of opposite
differences cancel. -/
theorem positive_sub_positive_neg (a : Int) : positive a - positive (-a) = a := by
  rw [positive_eq_max, positive_eq_max]; omega

/-- Subtracting the clamped overshoot realises a minimum. -/
theorem sub_positive_eq_min (y z : Int) : y - positive (y - z) = min y z := by
  rw [positive_eq_max]; omega

/-- `ceil` always advances strictly beyond `n`, for every integer `n`. -/
theorem lt_ceil (n : Int) {u : Int} (hu : 0 < u) : n < ceil n u := by
  unfold ceil
  exact Int.lt_tdiv_add_one_mul_self n hu

/-- `ceil n u` is a multiple of `u`. -/
theorem dvd_ceil (n u : Int) : u ∣ ceil n u := ⟨Int.tdiv n u + 1, mul_comm _ _⟩

/-- `floor` of a multiple of `u` is itself. -/
theorem floor_of_dvd {n u : Int} (hu : u ≠ 0) (h : u ∣ n) : floor n u = n := by
  rcases h with ⟨m, rfl⟩
  unfold floor
  rw [mul_comm u m, Int.mul_tdiv_cancel m hu]

/-- On nonnegative arguments Go's truncated division agrees with
Euclidean division, hence `floor` is the true flooring. -/
theorem floor_eq_ediv_mul {n u : Int} (hn : 0 ≤ n) (hu : 0 < u) :
    floor n u = n / u * u := by
  unfold floor
  rw [Int.tdiv_eq_ediv hn hu.le]

theorem floor_le {n u : Int} (hn : 0 ≤ n) (hu : 0 < u) : floor n u ≤ n := by
  rw [floor_eq_ediv_mul hn hu]
  exact Int.ediv_mul_le n hu.ne'

theorem lt_floor_add {n u : Int} (hn : 0 ≤ n) (hu : 0 < u) : n < floor n u + u := by
  rw [floor_eq_ediv_mul hn hu]
  have := Int.lt_ediv_add_one_mul_self n hu
  nlinarith [this]

theorem floor_mono {a n u : Int} (ha : 0 ≤ a) (h : a ≤ n) (hu : 0 < u) :
    floor a u ≤ floor n u := by
  rw [floor_eq_ediv_mul ha hu, floor_eq_ediv_mul (ha.trans h) hu]
  exact mul_le_mul_of_nonneg_right (Int.ediv_le_ediv hu h) hu.le

theorem dvd_floor (n u : Int) : u ∣ floor n u := ⟨Int.tdiv n u, mul_comm _ _⟩

/-- A multiple of `u` lying below `n` also lies below `floor n u`
(for `0 ≤ n`). -/
theorem mul_le_floor {m n u : Int} (hn : 0 ≤ n) (hu : 0 < u) (h : m * u ≤ n) :
    m * u ≤ floor n u := by
  rw [floor_eq_ediv_mul hn hu]
  have hm : m ≤ n / u := (Int.le_ediv_iff_mul_le hu).mpr h
  exact mul_le_mul_of_nonneg_right hm hu.le

/-- Errors surfaced by the blob reader (section 7 of the specification). -/
inductive BlobErr where
  | blobClosed
  | misalignedRegion
  | fetchFailed
  | checkFailed
  | resolveFailed
  | sizeMismatch
deriving DecidableEq

/-- The chunk the `walkChunks` loop body builds at loop index `i`
(blob.go lines 466-469): `reg := region{i, i + chunkSize - 1}`, then the end
is clamped to `size - 1` when it reaches past the blob. -/
def chunkAt (c s i : Int) : region :=
  { b := i, e := if i + c - 1 ≥ s then s - 1 else i + c - 1 }

theorem chunkAt_e (c s i : Int) : (chunkAt c s i).e = min (i + c - 1) (s - 1) := by
  unfold chunkAt
  dsimp only
  split <;> omega

theorem chunkAt_b (c s i : Int) : (chunkAt c s i).b = i := rfl

/-- The `for` loop of `walkChunks` (blob.go line 465):
`for i := allRegion.b; i <= allRegion.e && i < b.size; i += b.chunkSize`.
The first argument is an iteration bound making the recursion structural;
`walkFuel` below is proven sufficient whenever `0 < c`. -/
def walkChunksLoop : Nat → Int → Int → Int → Int → List region
  | 0, _, _, _, _ => []
  | fuel + 1, c, s, i, e =>
    if i ≤ e ∧ i < s then chunkAt c s i :: walkChunksLoop fuel c s (i + c) e
    else []

/-- An iteration bound for the `walkChunks` loop: the loop runs while
`i ≤ min e (s-1)` and advances by `c ≥ 1` each time. -/
def walkFuel (s : Int) (r : region) : Nat := (min r.e (s - 1) + 1 - r.b).toNat

/-- `walkChunks` (blob.go lines 460-475), split into the misalignment check
plus the list of chunk regions the loop passes to `walkFn` in order.  The
walk functions used by `ReadAt` and `Cache` never return an error, so the
fold of the walk function over this list is exactly the Go loop. -/
def walkChunksList (c s : Int) (r : region) : Except BlobErr (List region) :=
  if Int.tmod r.b c ≠ 0 then .error .misalignedRegion
  else .ok (walkChunksLoop (walkFuel s r) c s r.b r.e)

/-- The number of iterations the `walkChunks` loop performs when started at
`i`: zero if the condition fails at once, else one per multiple of `c`
from `i` up to `min e (s-1)`. -/
def walkCountFrom (c s i e : Int) : Nat :=
  if i ≤ e ∧ i < s then (min e (s - 1) - i).toNat / c.toNat + 1 else 0

/-- Loop iteration count of `walkChunks` over a whole region. -/
def walkCount (c s : Int) (r : region) : Nat := walkCountFrom c s r.b r.e

theorem lt_walkCountFrom_iff {c : Int} (hc : 0 < c) (s i e : Int) (k : Nat) :
    k < walkCountFrom c s i e ↔ i + k * c ≤ e ∧ i + k * c < s := by
  unfold walkCountFrom
  have hkc : 0 ≤ (k : Int) * c := mul_nonneg (Int.natCast_nonneg k) hc.le
  split
  · next hcond =>
    have hM : 0 ≤ min e (s - 1) - i := by omega
    have hcN : 0 < c.toNat := by omega
    constructor
    · intro hk
      have hk' : k ≤ (min e (s - 1) - i).toNat / c.toNat := by omega
      have := (Nat.le_div_iff_mul_le hcN).mp hk'
      have hcast : ((k * c.toNat : Nat) : Int) ≤ ((min e (s - 1) - i).toNat : Int) := by
        exact_mod_cast this
      rw [Int.toNat_of_nonneg hM] at hcast
      have hc' : ((c.toNat : Nat) : Int) = c := Int.toNat_of_nonneg hc.le
      push_cast at hcast
      rw [hc'] at hcast
      omega
    · intro hk
      have hle : (k : Int) * c ≤ min e (s - 1) - i := by omega
      have hc' : ((c.toNat : Nat) : Int) = c := Int.toNat_of_nonneg hc.le
      have hcast : ((k * c.toNat : Nat) : Int) ≤ ((min e (s - 1) - i).toNat : Int) := by
        rw [Int.toNat_of_nonneg hM]
        push_cast
        rw [hc']
        omega
      have := (Nat.le_div_iff_mul_le hcN).mpr (by exact_mod_cast hcast)
      omega
  · next hcond =>
    constructor
    · omega
    · intro hk
      exact absurd ⟨by omega, by omega⟩ hcond

theorem walkCountFrom_step {c : Int} (hc : 0 < c) {s i e : Int}
    (hcond : i ≤ e ∧ i < s) :
    walkCountFrom c s i e = walkCountFrom c s (i + c) e + 1 := by
  have hcN : 0 < c.toNat := by omega
  unfold walkCountFrom
  rw [if_pos hcond]
  by_cases h2 : i + c ≤ e ∧ i + c < s
  · rw [if_pos h2]
    have hM : c ≤ min e (s - 1) - i := by omega
    have hsub : (min e (s - 1) - (i + c)).toNat = (min e (s - 1) - i).toNat - c.toNat := by
      omega
    have hle : c.toNat ≤ (min e (s - 1) - i).toNat := by omega
    rw [hsub, ← Nat.div_eq_sub_div hcN hle]
  · rw [if_neg h2]
    have hlt : min e (s - 1) - i < c := by omega
    have : (min e (s - 1) - i).toNat / c.toNat = 0 := Nat.div_eq_of_lt (by omega)
    omega

/-- Characterization of the `walkChunks` loop: given enough fuel it visits
exactly the chunk-aligned subregions, in increasing order of start. -/
theorem walkChunksLoop_eq {c : Int} (hc : 0 < c) (s e : Int) :
    ∀ (fuel : Nat) (i : Int), (min e (s - 1) + 1 - i).toNat ≤ fuel →
      walkChunksLoop fuel c s i e =
        (List.range (walkCountFrom c s i e)).map
          (fun (k : Nat) => chunkAt c s (i + (k : Int) * c)) := by
  intro fuel
  induction fuel with
  | zero =>
    intro i hfuel
    have hcond : ¬(i ≤ e ∧ i < s) := by omega
    unfold walkChunksLoop walkCountFrom
    rw [if_neg hcond]
    simp
  | succ fuel ih =>
    intro i hfuel
    unfold walkChunksLoop
    by_cases hcond : i ≤ e ∧ i < s
    · rw [if_pos hcond]
      have hnext : (min e (s - 1) + 1 - (i + c)).toNat ≤ fuel := by omega
      rw [ih (i + c) hnext, walkCountFrom_step hc hcond, List.range_succ_eq_map,
        List.map_cons, List.map_map]
      congr 1
      · norm_num
      · apply List.map_congr_left
        intro k _
        simp only [Function.comp_apply]
        congr 1
        push_cast
        ring
    · rw [if_neg hcond]
      unfold walkCountFrom
      rw [if_neg hcond]
      simp

/-- On aligned input `walkChunksList` succeeds with the enumerated chunks. -/
theorem walkChunksList_ok {c : Int} (hc : 0 < c) {s : Int} {r : region}
    (halign : Int.tmod r.b c = 0) :
    walkChunksList c s r =
      .ok ((List.range (walkCount c s r)).map
        (fun (k : Nat) => chunkAt c s (r.b + (k : Int) * c))) := by
  unfold walkChunksList
  rw [if_neg (by simp [halign])]
  rw [walkChunksLoop_eq hc s r.e (walkFuel s r) r.b (le_of_eq rfl)]
  rfl

theorem walkChunksList_error_iff (c s : Int) (r : region) :
    walkChunksList c s r = .error .misalignedRegion ↔ Int.tmod r.b c ≠ 0 := by
  unfold walkChunksList
  split
  · next h => simp [h]
  · next h => simp [h]

/-- Membership in the walked chunk list. -/
theorem mem_walkChunksList {c : Int} (hc : 0 < c) {s : Int} {r : region}
    {L : List region} (h : walkChunksList c s r = .ok L) (ch : region) :
    ch ∈ L ↔ ∃ k : Nat, k < walkCount c s r ∧ ch = chunkAt c s (r.b + (k : Int) * c) := by
  have halign : Int.tmod r.b c = 0 := by
    by_contra hne
    rw [(walkChunksList_error_iff c s r).mpr hne] at h
    cases h
  rw [walkChunksList_ok hc halign] at h
  injection h with hL
  subst hL
  constructor
  · intro hmem
    rcases List.mem_map.mp hmem with ⟨k, hk, hEq⟩
    exact ⟨k, List.mem_range.mp hk, hEq.symm⟩
  · rintro ⟨k, hk, rfl⟩
    exact List.mem_map.mpr ⟨k, List.mem_range.mpr hk, rfl⟩

/-- C9: for every integer `n` and every unit `u > 0`,
`floor(ceil(n, u), u) == ceil(n, u)` and `ceil(n, u) ≥ n + 1`: `ceil`
always advances to the next multiple of `u` and never returns `n`
unchanged. -/
theorem ceil_advances_and_floor_fixes (n u : Int) (hu : 0 < u) :
    floor (ceil n u) u = ceil n u ∧ n + 1 ≤ ceil n u :=
  ⟨floor_of_dvd hu.ne' (dvd_ceil n u), lt_ceil n hu⟩

theorem ceil_advances_and_floor_fixes_witness :
    (0 : Int) < 3 ∧ (floor (ceil 7 3) 3 = ceil 7 3 ∧ (7 : Int) + 1 ≤ ceil 7 3) :=
  ⟨by decide, ceil_advances_and_floor_fixes 7 3 (by decide)⟩

/-- C8: `walkChunks(r, fn)` fails with the misaligned-region error iff
`r.b % chunkSize ≠ 0`; otherwise it visits exactly the sub-regions
`{r.b + k*c, min(r.b + (k+1)*c - 1, s-1)}` for `k = 0, 1, ...` in increasing
order of start offset, where `k` ranges over the starts not exceeding
`min(r.e, s-1)`, and every non-final chunk is unclamped (only the final
chunk can end at `s-1` by clamping). -/
theorem walkChunks_enumerates_chunks (c s : Int) (r : region) (hc : 0 < c) :
    (walkChunksList c s r = .error .misalignedRegion ↔ Int.tmod r.b c ≠ 0) ∧
    (Int.tmod r.b c = 0 →
      walkChunksList c s r =
        .ok ((List.range (walkCount c s r)).map
          (fun (k : Nat) => { b := r.b + (k : Int) * c,
                              e := min (r.b + ((k : Int) + 1) * c - 1) (s - 1) })) ∧
      (∀ k : Nat, k < walkCount c s r ↔ r.b + (k : Int) * c ≤ min r.e (s - 1)) ∧
      (∀ k : Nat, k + 1 < walkCount c s r →
        min (r.b + ((k : Int) + 1) * c - 1) (s - 1) = r.b + ((k : Int) + 1) * c - 1)) := by
  have hcount : ∀ k : Nat, k < walkCount c s r ↔ r.b + (k : Int) * c ≤ min r.e (s - 1) := by
    intro k
    rw [walkCount, lt_walkCountFrom_iff hc]
    omega
  refine ⟨walkChunksList_error_iff c s r, fun halign => ⟨?_, hcount, ?_⟩⟩
  · rw [walkChunksList_ok hc halign]
    congr 1
    apply List.map_congr_left
    intro k _
    have hkc : ((k : Int) + 1) * c = (k : Int) * c + c := by ring
    unfold chunkAt
    simp only [region.mk.injEq]
    refine ⟨trivial, ?_⟩
    split <;> omega
  · intro k hk
    have h2 := (hcount (k + 1)).mp hk
    push_cast at h2
    omega

theorem walkChunks_enumerates_chunks_witness :
    (0 : Int) < 3 ∧
    ((walkChunksList 3 10 ⟨0, 9⟩ = .error .misalignedRegion ↔ Int.tmod 0 3 ≠ 0) ∧
    (Int.tmod 0 3 = 0 →
      walkChunksList 3 10 ⟨0, 9⟩ =
        .ok ((List.range (walkCount 3 10 ⟨0, 9⟩)).map
          (fun (k : Nat) => { b := 0 + (k : Int) * 3,
                              e := min (0 + ((k : Int) + 1) * 3 - 1) (10 - 1) })) ∧
      (∀ k : Nat, k < walkCount 3 10 ⟨0, 9⟩ ↔ 0 + (k : Int) * 3 ≤ min 9 (10 - 1)) ∧
      (∀ k : Nat, k + 1 < walkCount 3 10 ⟨0, 9⟩ →
        min (0 + ((k : Int) + 1) * 3 - 1) (10 - 1) = 0 + ((k : Int) + 1) * 3 - 1))) :=
  ⟨by decide, walkChunks_enumerates_chunks 3 10 ⟨0, 9⟩ (by decide)⟩

/-- Model of the `fetcher` collaborator (fetcher.go, consumed by blob.go):
`content` is the byte sequence of the remote blob as served on a successful
range fetch, `fetchOK` tells whether `fetch` succeeds, and `checkOK`
whether the liveness probe `check()` succeeds. -/
structure FetcherModel where
  content : Int → Byte
  fetchOK : Bool
  checkOK : Bool

/-- A committed cache entry (the bytes behind one `genID(chunk)` key):
its content function and its length in bytes. -/
structure CacheEntry where
  data : Int → Byte
  len : Int

/-- The `blob` struct of blob.go.  `cache` maps a chunk region to the entry
committed under `fetcher.genID(chunk)` (`none` is a cache miss);
`fetchedRegions` stands for `fetchedRegionSet`.  Time values (`lastCheck`,
`checkInterval`) are integers on a monotonic clock. -/
structure BlobState where
  size : Int
  chunkSize : Int
  prefetchChunkSize : Int
  fetcher : FetcherModel
  cache : region → Option CacheEntry
  fetchedRegions : List region
  lastCheck : Int
  checkInterval : Int
  closed : Bool

/-- Overwrite the window `[base, base+len)` of buffer `dst` with `src`
(read from position 0). -/
def writeSeg (dst : Int → Byte) (base : Int) (src : Int → Byte) (len : Int) :
    Int → Byte :=
  fun i => if base ≤ i ∧ i < base + len then src (i - base) else dst i

/-- `base` of a chunk in `prepareChunksForRead` (blob.go line 280):
`positive(chunk.b - offset)`, the chunk's start within `p`. -/
def chunkBase (offset : Int) (chunk : region) : Int := positive (chunk.b - offset)

/-- `lowerUnread` (blob.go line 281): `positive(offset - chunk.b)`, the bytes
at the head of the chunk that the caller did not ask for. -/
def chunkLower (offset : Int) (chunk : region) : Int := positive (offset - chunk.b)

/-- `upperUnread` (blob.go line 282): `positive(chunk.e + 1 - (offset + len(p)))`,
the bytes at the tail of the chunk that the caller did not ask for. -/
def chunkUpper (offset plen : Int) (chunk : region) : Int :=
  positive (chunk.e + 1 - (offset + plen))

/-- `expectedSize` (blob.go line 283): `chunk.size() - upperUnread - lowerUnread`,
the number of chunk bytes destined for the caller's buffer. -/
def chunkExpected (offset plen : Int) (chunk : region) : Int :=
  chunk.size - chunkUpper offset plen chunk - chunkLower offset chunk

/-- `readFromCache` (blob.go lines 300-314): `cache.Get(genID(chunk))`
followed by `r.ReadAt(dest, offset)` into the slice
`p[base : base+destLen]`, requiring exactly `destLen` bytes.  A missing
entry or a short read (`n != len(dest)`) is reported as `none` and treated
as a cache miss by the caller. -/
def readFromCache (b : BlobState) (chunk : region) (dst : Int → Byte)
    (base destLen off : Int) : Option (Int → Byte) :=
  match b.cache chunk with
  | none => none
  | some entry =>
      if destLen ≤ positive (entry.len - off) then
        some (writeSeg dst base (fun k => entry.data (off + k)) destLen)
      else none

/-- One step of `prepareChunksForRead` (blob.go lines 277-297): try the
cache for this chunk; on success the bytes land in the caller's buffer at
`[base, base+expectedSize)`, on a miss the chunk is recorded in `allData`
(modelled as an ordered list of missed chunks). -/
def prepareChunk (b : BlobState) (offset plen : Int)
    (acc : (Int → Byte) × List region) (chunk : region) :
    (Int → Byte) × List region :=
  match readFromCache b chunk acc.1 (chunkBase offset chunk)
      (chunkExpected offset plen chunk) (chunkLower offset chunk) with
  | some dst1 => (dst1, acc.2)
  | none => (acc.1, acc.2 ++ [chunk])

/-- `prepareChunksForRead` (blob.go lines 277-297): walk the aligned region
chunk by chunk, filling cache hits into `p` and collecting misses. -/
def prepareChunksForRead (b : BlobState) (offset plen : Int)
    (dst : Int → Byte) (chunks : List region) : (Int → Byte) × List region :=
  chunks.foldl (prepareChunk b offset plen) (dst, [])

/-- The `bytesWriter` struct of blob.go (lines 485-489): a writer over the
destination slice `dest` (of length `destLen`) that projects the incoming
chunk stream onto the window starting at `destOff`; `current` is the number
of stream bytes consumed so far. -/
structure bytesWriter where
  dest : Int → Byte
  destLen : Int
  destOff : Int
  current : Int

/-- Go's `copy(dest[destBase:], p[pBegin:pEnd])` where `dest` has length
`destLen`: copies `min(destLen - destBase, pEnd - pBegin)` bytes. -/
def goCopy (dest : Int → Byte) (destBase : Int) (p : Int → Byte)
    (pBegin pEnd destLen : Int) : Int → Byte :=
  fun i =>
    if destBase ≤ i ∧ i < destBase + min (destLen - destBase) (pEnd - pBegin) then
      p (pBegin + (i - destBase))
    else dest i

/-- `bytesWriter.Write` (blob.go lines 491-513) for one incoming slice `p`
of length `plen`.  The cursor `current` always advances by `plen`; the
intersection of the window with the cursor range is copied into `dest`. -/
def bytesWriter.write (bw : bytesWriter) (p : Int → Byte) (plen : Int) :
    bytesWriter :=
  let destBase := positive (bw.current - bw.destOff)
  let pBegin := positive (bw.destOff - bw.current)
  let pEnd0 := positive (bw.destOff + bw.destLen - bw.current)
  if destBase > bw.destLen then { bw with current := bw.current + plen }
  else if pBegin ≥ plen then { bw with current := bw.current + plen }
  else
    let pEnd := if pEnd0 > plen then plen else pEnd0
    { bw with
      dest := goCopy bw.dest destBase p pBegin pEnd bw.destLen
      current := bw.current + plen }

/-- Feeding a whole packet sequence to a `bytesWriter`, in order.  Models
the sequence of `Write` calls `io.CopyN` performs while streaming one
chunk (blob.go line 544). -/
def bytesWriter.writeAll (bw : bytesWriter) (ps : List ((Int → Byte) × Int)) :
    bytesWriter :=
  ps.foldl (fun w pp => w.write pp.1 pp.2) bw

/-- The effect on the caller's buffer of fetching one missed chunk
(blob.go lines 531-559 via `fetchRegions`): the fetched chunk bytes are
streamed into `newBytesWriter(p[base:base+expectedSize], lowerUnread)`.
The stream is modelled as a single `Write` of the whole chunk;
`bytesWriter_writeAll_spec` below shows the final buffer contents are the
same for every split of the stream into packets. -/
def applyFetchedChunk (b : BlobState) (offset plen : Int) (dst : Int → Byte)
    (chunk : region) : Int → Byte :=
  let base := chunkBase offset chunk
  let expectedSize := chunkExpected offset plen chunk
  let bw : bytesWriter :=
    { dest := fun j => dst (base + j), destLen := expectedSize,
      destOff := chunkLower offset chunk, current := 0 }
  let bw1 := bw.write (fun k => b.fetcher.content (chunk.b + k)) chunk.size
  fun i => if base ≤ i ∧ i < base + expectedSize then bw1.dest (i - base) else dst i

/-- `fetchRange` and `fetchRegions` (blob.go lines 316-402) for a single
caller (the singleflight result is not shared): nothing to do when no
chunk is missing; otherwise the fetcher is invoked once for the missed
regions and, on success, each missed chunk's bytes are streamed into its
registered destination writer. -/
def fetchRangeModel (b : BlobState) (offset plen : Int) (dst : Int → Byte)
    (misses : List region) : Except BlobErr (Int → Byte) :=
  if misses = [] then .ok dst
  else if b.fetcher.fetchOK then .ok (misses.foldl (applyFetchedChunk b offset plen) dst)
  else .error .fetchFailed

/-- `adjustBufferSize` (blob.go lines 446-454): clamp the reported read
count to the bytes remaining in the blob. -/
def adjustBufferSize (size plen offset : Int) : Int :=
  if plen ≥ size - offset then (if size - offset < 0 then 0 else size - offset)
  else plen

/-- `blob.ReadAt` (blob.go lines 244-274): closed check, trivial-request
check, chunk alignment, per-chunk cache probe, fetch of the missed chunks,
and the adjusted byte count.  Returns the final contents of the caller's
buffer together with the returned count. -/
def readAtOp (b : BlobState) (dst : Int → Byte) (plen offset : Int) :
    Except BlobErr ((Int → Byte) × Int) :=
  if b.closed then .error .blobClosed
  else if plen = 0 ∨ offset > b.size then .ok (dst, 0)
  else
    match walkChunksList b.chunkSize b.size
        ⟨floor offset b.chunkSize, ceil (offset + plen - 1) b.chunkSize - 1⟩ with
    | .error err => .error err
    | .ok chunks =>
        let pr := prepareChunksForRead b offset plen dst chunks
        match fetchRangeModel b offset plen pr.1 pr.2 with
        | .error err => .error err
        | .ok dst2 => .ok (dst2, adjustBufferSize b.size plen offset)

theorem self_le_positive (n : Int) : n ≤ positive n := by
  rw [positive_eq_max]; omega

/-- The window of the caller's buffer `p` that chunk `ch` is responsible
for: indices `[base, base + expectedSize)`. -/
def inWindow (offset plen : Int) (ch : region) (i : Int) : Prop :=
  chunkBase offset ch ≤ i ∧ i < chunkBase offset ch + chunkExpected offset plen ch

instance (offset plen : Int) (ch : region) (i : Int) :
    Decidable (inWindow offset plen ch i) := by
  unfold inWindow
  infer_instance

/-- Arithmetic facts about the per-chunk slicing quantities of
`prepareChunksForRead`. -/
theorem chunk_window_facts (offset plen : Int) (ch : region) :
    0 ≤ chunkBase offset ch ∧ 0 ≤ chunkLower offset ch ∧
    0 ≤ chunkUpper offset plen ch ∧
    chunkBase offset ch - chunkLower offset ch = ch.b - offset ∧
    chunkBase offset ch + chunkExpected offset plen ch =
      min (ch.e + 1) (offset + plen) - offset ∧
    chunkLower offset ch + chunkExpected offset plen ch =
      ch.size - chunkUpper offset plen ch ∧
    (chunkBase offset ch = 0 ∨ chunkLower offset ch = 0) := by
  simp only [chunkBase, chunkLower, chunkUpper, chunkExpected, region.size,
    positive_eq_max]
  omega

/-- A single `bytesWriter.Write` of `m ≥ o + n` stream bytes fills the
whole destination window with the stream bytes starting at `destOff`. -/
theorem bytesWriter_write_single (dest : Int → Byte) (n o : Int) (p : Int → Byte)
    (m : Int) (ho : 0 ≤ o) (hn : 0 < n) (hom : o + n ≤ m) :
    ∀ j, 0 ≤ j → j < n →
      (bytesWriter.write { dest := dest, destLen := n, destOff := o, current := 0 } p m).dest j
        = p (o + j) := by
  intro j hj0 hjn
  unfold bytesWriter.write
  dsimp only
  rw [positive_of_nonpos (by omega : (0 : Int) - o ≤ 0),
    positive_of_nonneg (by omega : (0 : Int) ≤ o - 0),
    positive_of_nonneg (by omega : (0 : Int) ≤ o + n - 0)]
  rw [if_neg (by omega), if_neg (by omega), if_neg (by omega)]
  unfold goCopy
  dsimp only
  rw [if_pos (by constructor <;> omega)]
  congr 1
  omega

/-- Cache coherence: every committed entry under a chunk's `genID` holds
exactly that chunk's bytes of the blob served by the fetcher.  This is the
state the reader itself establishes (entries are only committed after
streaming `chunk.size()` fetched bytes, blob.go lines 531-559). -/
def cacheMatches (b : BlobState) : Prop :=
  ∀ ch entry, b.cache ch = some entry →
    entry.len = ch.size ∧
    ∀ k : Int, 0 ≤ k → k < ch.size → entry.data k = b.fetcher.content (ch.b + k)

/-- A successful cache read of a chunk fills exactly the chunk's window of
the buffer with the blob's bytes and leaves the rest unchanged. -/
theorem readFromCache_sets {b : BlobState} (hb : cacheMatches b)
    {offset plen : Int} {chunk : region} {dst dst1 : Int → Byte}
    (h : readFromCache b chunk dst (chunkBase offset chunk)
        (chunkExpected offset plen chunk) (chunkLower offset chunk) = some dst1)
    (i : Int) :
    (inWindow offset plen chunk i → dst1 i = b.fetcher.content (offset + i)) ∧
    (¬inWindow offset plen chunk i → dst1 i = dst i) := by
  obtain ⟨hb0, hl0, hu0, hbl, hbe, hle, hbz⟩ := chunk_window_facts offset plen chunk
  cases hcc : b.cache chunk with
  | none =>
    unfold readFromCache at h
    rw [hcc] at h
    cases h
  | some entry =>
    unfold readFromCache at h
    rw [hcc] at h
    dsimp only at h
    by_cases hfit : chunkExpected offset plen chunk ≤
        positive (entry.len - chunkLower offset chunk)
    · rw [if_pos hfit] at h
      obtain ⟨hlen, hdata⟩ := hb chunk entry hcc
      injection h with h1
      subst h1
      constructor
      · intro hw
        obtain ⟨hw1, hw2⟩ := hw
        unfold writeSeg
        rw [if_pos ⟨hw1, hw2⟩]
        have hfit2 : chunkExpected offset plen chunk ≤
            positive (chunk.size - chunkLower offset chunk) := by
          rw [hlen] at hfit; exact hfit
        have hfit3 : chunkLower offset chunk + chunkExpected offset plen chunk ≤
            chunk.size := by
          rw [positive_eq_max] at hfit2
          omega
        dsimp only
        rw [hdata (chunkLower offset chunk + (i - chunkBase offset chunk))
          (by omega) (by omega)]
        congr 1
        omega
      · intro hw
        unfold inWindow at hw
        unfold writeSeg
        rw [if_neg hw]
    · rw [if_neg hfit] at h
      cases h

/-- The cache-hit bytes written by `prepareChunk` never disagree with the
blob: each step either leaves a buffer byte alone or writes the byte the
blob holds at that position. -/
theorem prepareChunk_pointwise {b : BlobState} (hb : cacheMatches b)
    (offset plen : Int) (acc : (Int → Byte) × List region) (ch : region) (i : Int) :
    (prepareChunk b offset plen acc ch).1 i = acc.1 i ∨
    (prepareChunk b offset plen acc ch).1 i = b.fetcher.content (offset + i) := by
  unfold prepareChunk
  cases hrc : readFromCache b ch acc.1 (chunkBase offset ch)
      (chunkExpected offset plen ch) (chunkLower offset ch) with
  | none => left; rfl
  | some dst1 =>
    obtain ⟨hin, hout⟩ := readFromCache_sets hb hrc i
    by_cases hw : inWindow offset plen ch i
    · right; exact hin hw
    · left; exact hout hw

/-- After `prepareChunk` handles chunk `ch`, every buffer index in `ch`'s
window either already holds the blob byte (cache hit) or `ch` is recorded
as missed. -/
theorem prepareChunk_covers {b : BlobState} (hb : cacheMatches b)
    (offset plen : Int) (acc : (Int → Byte) × List region) (ch : region) (i : Int)
    (hw : inWindow offset plen ch i) :
    (prepareChunk b offset plen acc ch).1 i = b.fetcher.content (offset + i) ∨
    ch ∈ (prepareChunk b offset plen acc ch).2 := by
  unfold prepareChunk
  cases hrc : readFromCache b ch acc.1 (chunkBase offset ch)
      (chunkExpected offset plen ch) (chunkLower offset ch) with
  | none => right; simp
  | some dst1 =>
    left
    exact (readFromCache_sets hb hrc i).1 hw

theorem prepareChunk_misses_mono (b : BlobState) (offset plen : Int)
    (acc : (Int → Byte) × List region) (ch ch' : region) (h : ch' ∈ acc.2) :
    ch' ∈ (prepareChunk b offset plen acc ch).2 := by
  unfold prepareChunk
  cases readFromCache b ch acc.1 (chunkBase offset ch)
      (chunkExpected offset plen ch) (chunkLower offset ch) with
  | none => simp [h]
  | some dst1 => exact h

/-- Streaming one fetched chunk writes exactly the blob's bytes into the
chunk's window of the caller's buffer and leaves everything else
unchanged. -/
theorem applyFetchedChunk_sets (b : BlobState) (offset plen : Int)
    (dst : Int → Byte) (ch : region) (i : Int) :
    (inWindow offset plen ch i →
      applyFetchedChunk b offset plen dst ch i = b.fetcher.content (offset + i)) ∧
    (¬inWindow offset plen ch i →
      applyFetchedChunk b offset plen dst ch i = dst i) := by
  obtain ⟨hb0, hl0, hu0, hbl, hbe, hle, hbz⟩ := chunk_window_facts offset plen ch
  constructor
  · rintro ⟨hw1, hw2⟩
    unfold applyFetchedChunk
    rw [if_pos ⟨hw1, hw2⟩]
    have hexp : 0 < chunkExpected offset plen ch := by omega
    rw [bytesWriter_write_single (fun j => dst (chunkBase offset ch + j))
      (chunkExpected offset plen ch) (chunkLower offset ch)
      (fun k => b.fetcher.content (ch.b + k)) ch.size hl0 hexp (by omega)
      (i - chunkBase offset ch) (by omega) (by omega)]
    congr 1
    omega
  · intro hw
    unfold applyFetchedChunk
    unfold inWindow at hw
    rw [if_neg hw]

/-- Folding the fetched-chunk writes preserves already-correct bytes and
fills every byte lying in some missed chunk's window. -/
theorem fetch_fold_correct (b : BlobState) (offset plen : Int) :
    ∀ (ms : List region) (dst : Int → Byte) (i : Int),
      (dst i = b.fetcher.content (offset + i) ∨ ∃ ch ∈ ms, inWindow offset plen ch i) →
      (ms.foldl (applyFetchedChunk b offset plen) dst) i = b.fetcher.content (offset + i)
  | [], dst, i, h => by
    rcases h with h | ⟨ch, hch, _⟩
    · exact h
    · cases hch
  | ch0 :: rest, dst, i, h => by
    simp only [List.foldl_cons]
    apply fetch_fold_correct b offset plen rest
    by_cases hw : inWindow offset plen ch0 i
    · left
      exact (applyFetchedChunk_sets b offset plen dst ch0 i).1 hw
    · rcases h with h | ⟨ch, hch, hwch⟩
      · left
        rw [(applyFetchedChunk_sets b offset plen dst ch0 i).2 hw]
        exact h
      · rcases List.mem_cons.mp hch with rfl | hmem
        · exact absurd hwch hw
        · right
          exact ⟨ch, hmem, hwch⟩

/-- The cache-probing fold never writes a byte disagreeing with the blob. -/
theorem prepare_fold_pointwise {b : BlobState} (hb : cacheMatches b)
    (offset plen : Int) :
    ∀ (chunks : List region) (acc : (Int → Byte) × List region) (i : Int),
      (chunks.foldl (prepareChunk b offset plen) acc).1 i = acc.1 i ∨
      (chunks.foldl (prepareChunk b offset plen) acc).1 i = b.fetcher.content (offset + i)
  | [], acc, i => Or.inl rfl
  | ch0 :: rest, acc, i => by
    simp only [List.foldl_cons]
    rcases prepare_fold_pointwise hb offset plen rest
        (prepareChunk b offset plen acc ch0) i with h | h
    · rw [h]
      exact prepareChunk_pointwise hb offset plen acc ch0 i
    · right
      exact h

/-- Chunks recorded as missed stay recorded through the rest of the walk. -/
theorem prepare_fold_mem (b : BlobState) (offset plen : Int) :
    ∀ (chunks : List region) (acc : (Int → Byte) × List region) (ch' : region),
      ch' ∈ acc.2 → ch' ∈ (chunks.foldl (prepareChunk b offset plen) acc).2
  | [], _, _, h => h
  | ch0 :: rest, acc, ch', h => by
    simp only [List.foldl_cons]
    exact prepare_fold_mem b offset plen rest _ ch'
      (prepareChunk_misses_mono b offset plen acc ch0 ch' h)

/-- After the cache-probing walk, every byte in the window of a walked
chunk is either already the blob's byte or its chunk is recorded missed. -/
theorem prepare_fold_covers {b : BlobState} (hb : cacheMatches b)
    (offset plen : Int) :
    ∀ (chunks : List region) (acc : (Int → Byte) × List region) (i : Int)
      (ch : region), ch ∈ chunks → inWindow offset plen ch i →
      (chunks.foldl (prepareChunk b offset plen) acc).1 i = b.fetcher.content (offset + i) ∨
      ch ∈ (chunks.foldl (prepareChunk b offset plen) acc).2
  | [], _, _, ch, hch, _ => absurd hch (List.not_mem_nil ch)
  | ch0 :: rest, acc, i, ch, hch, hw => by
    simp only [List.foldl_cons]
    rcases List.mem_cons.mp hch with rfl | hmem
    · rcases prepareChunk_covers hb offset plen acc ch i hw with h | h
      · rcases prepare_fold_pointwise hb offset plen rest
            (prepareChunk b offset plen acc ch) i with h2 | h2
        · left; rw [h2, h]
        · left; exact h2
      · right
        exact prepare_fold_mem b offset plen rest _ ch h
    · exact prepare_fold_covers hb offset plen rest _ i ch hmem hw

/-- `adjustBufferSize` computes `min(len(p), max(0, size - offset))`. -/
theorem adjustBufferSize_eq_min (s plen offset : Int) (hp : 0 ≤ plen) :
    adjustBufferSize s plen offset = min plen (max 0 (s - offset)) := by
  unfold adjustBufferSize
  split_ifs <;> omega

/-- Every byte the caller asked for that lies inside the blob is covered by
the window of one of the walked chunks of the aligned region. -/
theorem exists_covering_chunk {c : Int} (hc : 0 < c) {s offset plen i : Int}
    (hoff : 0 ≤ offset) (hi : 0 ≤ i) (hiplen : i < plen) (hisize : offset + i < s) :
    ∃ k : Nat, k < walkCount c s ⟨floor offset c, ceil (offset + plen - 1) c - 1⟩ ∧
      inWindow offset plen (chunkAt c s (floor offset c + (k : Int) * c)) i := by
  have hx : 0 ≤ offset + i := by omega
  have hm1 : floor offset c ≤ floor (offset + i) c := floor_mono hoff (by omega) hc
  have hm2 : floor (offset + i) c ≤ offset + i := floor_le hx hc
  have hm3 : offset + i < floor (offset + i) c + c := lt_floor_add hx hc
  obtain ⟨t1, ht1⟩ := dvd_floor (offset + i) c
  obtain ⟨t2, ht2⟩ := dvd_floor offset c
  have hdiff : floor (offset + i) c - floor offset c = (t1 - t2) * c := by
    rw [ht1, ht2]; ring
  have htt : 0 ≤ t1 - t2 := by
    by_contra hneg
    push_neg at hneg
    have : (t1 - t2) * c < 0 := mul_neg_of_neg_of_pos (by omega) hc
    omega
  have hcast : ((t1 - t2).toNat : Int) = t1 - t2 := Int.toNat_of_nonneg htt
  have hlt : offset + plen - 1 < ceil (offset + plen - 1) c := lt_ceil _ hc
  refine ⟨(t1 - t2).toNat, ?_, ?_⟩
  · rw [walkCount, lt_walkCountFrom_iff hc]
    dsimp only
    rw [hcast]
    constructor
    · omega
    · omega
  · have heq : floor offset c + ((t1 - t2).toNat : Int) * c = floor (offset + i) c := by
      rw [hcast]; omega
    rw [heq]
    obtain ⟨hb0, hl0, hu0, hbl, hbe, hle, hbz⟩ :=
      chunk_window_facts offset plen (chunkAt c s (floor (offset + i) c))
    have hchb : (chunkAt c s (floor (offset + i) c)).b = floor (offset + i) c :=
      chunkAt_b c s (floor (offset + i) c)
    have hche : (chunkAt c s (floor (offset + i) c)).e =
        min (floor (offset + i) c + c - 1) (s - 1) := chunkAt_e c s (floor (offset + i) c)
    unfold inWindow
    constructor
    · omega
    · omega

/-- C1: for every blob whose fetcher serves the true blob bytes (the cache
holding only bytes previously fetched from it, `cacheMatches`), every
successful `ReadAt(dst, off)` with `off ≥ 0` leaves the first `n` returned
bytes of `dst` equal to the blob's bytes over `[off, off+n)`, regardless of
which chunks were already cached and of partial-chunk slicing at either end
of the request. -/
theorem readAt_serves_blob_bytes (b : BlobState) (dst : Int → Byte)
    (plen offset : Int) (hc : 0 < b.chunkSize) (hoff : 0 ≤ offset)
    (hplen : 0 ≤ plen) (hcache : cacheMatches b) :
    ∀ dst1 n, readAtOp b dst plen offset = .ok (dst1, n) →
      ∀ i, 0 ≤ i → i < n → dst1 i = b.fetcher.content (offset + i) := by
  intro dst1 n h i hi0 hin
  unfold readAtOp at h
  split at h
  · cases h
  · split at h
    · cases h
      omega
    · next htriv =>
      obtain ⟨hpne, hlesize⟩ : ¬plen = 0 ∧ ¬offset > b.size := not_or.mp htriv
      cases hw : walkChunksList b.chunkSize b.size
          ⟨floor offset b.chunkSize, ceil (offset + plen - 1) b.chunkSize - 1⟩ with
      | error err =>
        rw [hw] at h
        cases h
      | ok chunks =>
        rw [hw] at h
        dsimp only at h
        cases hf : fetchRangeModel b offset plen
            (prepareChunksForRead b offset plen dst chunks).1
            (prepareChunksForRead b offset plen dst chunks).2 with
        | error err =>
          rw [hf] at h
          cases h
        | ok dst2 =>
          rw [hf] at h
          dsimp only at h
          cases h
          have hn : adjustBufferSize b.size plen offset =
              min plen (max 0 (b.size - offset)) :=
            adjustBufferSize_eq_min b.size plen offset hplen
          have hip : i < plen := by omega
          have his : offset + i < b.size := by omega
          obtain ⟨k, hk, hwin⟩ :=
            exists_covering_chunk hc hoff hi0 hip his
          have hmem : chunkAt b.chunkSize b.size
              (floor offset b.chunkSize + (k : Int) * b.chunkSize) ∈ chunks :=
            (mem_walkChunksList hc hw _).mpr ⟨k, hk, rfl⟩
          have hcov := prepare_fold_covers hcache offset plen chunks (dst, []) i _
            hmem hwin
          unfold fetchRangeModel at hf
          split at hf
          · next hnil =>
            injection hf with hf1
            subst hf1
            unfold prepareChunksForRead at hcov hnil
            rcases hcov with hcov | hcov
            · exact hcov
            · rw [hnil] at hcov
              cases hcov
          · split at hf
            · injection hf with hf1
              subst hf1
              unfold prepareChunksForRead at hcov ⊢
              apply fetch_fold_correct
              rcases hcov with hcov | hcov
              · left; exact hcov
              · right; exact ⟨_, hcov, hwin⟩
            · cases hf

/-- A concrete ten-byte blob with chunk size three and an empty cache, used
to instantiate the theorems (mirrors the test fixture `sampleData1` /
`sampleChunkSize` of blob_test.go). -/
def sampleBlob : BlobState :=
  { size := 10, chunkSize := 3, prefetchChunkSize := 0,
    fetcher := { content := fun i => i.toNat, fetchOK := true, checkOK := true },
    cache := fun _ => none, fetchedRegions := [], lastCheck := 0,
    checkInterval := 5, closed := false }

theorem readAt_serves_blob_bytes_witness :
    (0 : Int) < sampleBlob.chunkSize ∧ (0 : Int) ≤ 1 ∧ (0 : Int) ≤ 4 ∧
    cacheMatches sampleBlob ∧
    ∀ dst1 n, readAtOp sampleBlob (fun _ => 0) 4 1 = .ok (dst1, n) →
      ∀ i, 0 ≤ i → i < n → dst1 i = sampleBlob.fetcher.content (1 + i) :=
  ⟨by decide, by decide, by decide, by intro ch entry h; exact absurd h (by simp [sampleBlob]),
   readAt_serves_blob_bytes sampleBlob (fun _ => 0) 4 1 (by decide) (by decide)
     (by decide) (by intro ch entry h; exact absurd h (by simp [sampleBlob]))⟩

/-- C2: every `ReadAt(dst, off)` with `off ≥ 0` that returns without error
returns the byte count `min(len(dst), max(0, size - off))`. -/
theorem readAt_returns_min_count (b : BlobState) (dst : Int → Byte)
    (plen offset : Int) (hoff : 0 ≤ offset) (hplen : 0 ≤ plen) :
    ∀ dst1 n, readAtOp b dst plen offset = .ok (dst1, n) →
      n = min plen (max 0 (b.size - offset)) := by
  intro dst1 n h
  unfold readAtOp at h
  split at h
  · cases h
  · split at h
    · next htriv =>
      cases h
      rcases htriv with h0 | hgt <;> omega
    · next htriv =>
      obtain ⟨hpne, hlesize⟩ : ¬plen = 0 ∧ ¬offset > b.size := not_or.mp htriv
      cases hw : walkChunksList b.chunkSize b.size
          ⟨floor offset b.chunkSize, ceil (offset + plen - 1) b.chunkSize - 1⟩ with
      | error err => rw [hw] at h; cases h
      | ok chunks =>
        rw [hw] at h
        dsimp only at h
        cases hf : fetchRangeModel b offset plen
            (prepareChunksForRead b offset plen dst chunks).1
            (prepareChunksForRead b offset plen dst chunks).2 with
        | error err => rw [hf] at h; cases h
        | ok dst2 =>
          rw [hf] at h
          dsimp only at h
          cases h
          exact adjustBufferSize_eq_min b.size plen offset hplen

theorem readAt_returns_min_count_witness :
    (0 : Int) ≤ 1 ∧ (0 : Int) ≤ 4 ∧
    ∀ dst1 n, readAtOp sampleBlob (fun _ => 0) 4 1 = .ok (dst1, n) →
      n = min 4 (max 0 (sampleBlob.size - 1)) :=
  ⟨by decide, by decide,
   readAt_returns_min_count sampleBlob (fun _ => 0) 4 1 (by decide) (by decide)⟩

/-- A multiple of `c` strictly below `ceil x c` is at most `x` (for `x ≥ 0`). -/
theorem aligned_lt_ceil_le {m x c : Int} (hc : 0 < c) (hx : 0 ≤ x)
    (hdvd : c ∣ m) (h : m < ceil x c) : m ≤ x := by
  rcases hdvd with ⟨t, rfl⟩
  unfold ceil at h
  rw [Int.tdiv_eq_ediv hx hc.le] at h
  have ht : t ≤ x / c := by
    by_contra hlt
    push_neg at hlt
    nlinarith [hc]
  calc c * t = t * c := mul_comm c t
    _ ≤ x / c * c := mul_le_mul_of_nonneg_right ht hc.le
    _ ≤ x := Int.ediv_mul_le x hc.ne'

/-- C10: for every `ReadAt` call with `0 ≤ offset ≤ size` and non-empty
`dst`, every chunk visited by `prepareChunksForRead` satisfies `0 ≤ base`,
`0 ≤ expectedSize` and `base + expectedSize ≤ len(dst)`, so the destination
sub-slice `p[base : base+expectedSize]` is in bounds and the read path
cannot panic.  The precondition `offset ≥ 0` is necessary and not enforced
by the `offset > size` guard: at `offset = -5` (chunk size 3, size 10,
`len(dst) = 1`) the walk visits the chunk `{-3, -1}` whose `expectedSize`
is `-1`, an out-of-range slice. -/
theorem prepareChunks_slice_bounds (b : BlobState) (plen offset : Int)
    (hc : 0 < b.chunkSize) (hoff : 0 ≤ offset) (hoffs : offset ≤ b.size)
    (hplen : 0 < plen) :
    (∀ chunks, walkChunksList b.chunkSize b.size
        ⟨floor offset b.chunkSize,
          ceil (offset + plen - 1) b.chunkSize - 1⟩ = .ok chunks →
      ∀ ch ∈ chunks, 0 ≤ chunkBase offset ch ∧ 0 ≤ chunkExpected offset plen ch ∧
        chunkBase offset ch + chunkExpected offset plen ch ≤ plen) ∧
    (walkChunksList 3 10 ⟨floor (-5) 3, ceil (-5 + 1 - 1) 3 - 1⟩ =
        .ok [{ b := -3, e := -1 }] ∧
      chunkExpected (-5) 1 { b := -3, e := -1 } = -1) := by
  constructor
  · intro chunks hw ch hmem
    obtain ⟨k, hk, rfl⟩ := (mem_walkChunksList hc hw ch).mp hmem
    rw [walkCount, lt_walkCountFrom_iff hc] at hk
    dsimp only at hk
    obtain ⟨hk1, hk2⟩ := hk
    set m := floor offset b.chunkSize + (k : Int) * b.chunkSize with hm
    obtain ⟨hb0, hl0, hu0, hbl, hbe, hle, hbz⟩ :=
      chunk_window_facts offset plen (chunkAt b.chunkSize b.size m)
    have hchb : (chunkAt b.chunkSize b.size m).b = m := chunkAt_b _ _ _
    have hche : (chunkAt b.chunkSize b.size m).e =
        min (m + b.chunkSize - 1) (b.size - 1) := chunkAt_e _ _ _
    have hkc : 0 ≤ (k : Int) * b.chunkSize :=
      mul_nonneg (Int.natCast_nonneg k) hc.le
    have hflo : floor offset b.chunkSize ≤ offset := floor_le hoff hc
    have hfhi : offset < floor offset b.chunkSize + b.chunkSize := lt_floor_add hoff hc
    have hmx : m ≤ offset + plen - 1 := by
      apply aligned_lt_ceil_le hc (by omega)
      · rcases dvd_floor offset b.chunkSize with ⟨t, ht⟩
        exact ⟨t + k, by rw [hm, ht]; push_cast; ring⟩
      · omega
    refine ⟨hb0, ?_, ?_⟩ <;> omega
  · constructor
    · rfl
    · decide

theorem writeSeg_of_nonpos {dst : Int → Byte} {base : Int} {src : Int → Byte}
    {len : Int} (h : len ≤ 0) : writeSeg dst base src len = dst := by
  funext i
  unfold writeSeg
  rw [if_neg (by omega)]

theorem applyFetchedChunk_of_nonpos {b : BlobState} {offset plen : Int}
    {dst : Int → Byte} {ch : region} (h : chunkExpected offset plen ch ≤ 0) :
    applyFetchedChunk b offset plen dst ch = dst := by
  funext i
  exact (applyFetchedChunk_sets b offset plen dst ch i).2 (by unfold inWindow; omega)

/-- C5 counterexample: with chunk size 3 and blob size 10 (so the size is
not chunk aligned), an empty cache and a failing fetcher, `ReadAt` at
`offset == size` with a non-empty buffer attempts to fetch the trailing
partial chunk `{9, 9}` and surfaces the fetch error instead of returning
`(0, nil)`. -/
theorem readAt_at_size_failing_fetcher_cex :
    readAtOp
      { size := 10, chunkSize := 3, prefetchChunkSize := 0,
        fetcher := { content := fun _ => 0, fetchOK := false, checkOK := true },
        cache := fun _ => none, fetchedRegions := [], lastCheck := 0,
        checkInterval := 5, closed := false }
      (fun _ => 0) 1 10 = .error .fetchFailed := by
  rfl

/-- C5 (amended): for every open blob and non-empty `dst`, `ReadAt` with
`offset > size` returns 0 bytes and no error for every state of the cache
and the fetcher.  With `offset == size` it returns 0 bytes and no error
provided the trailing chunk is available: when `size` is chunk aligned
(nothing is walked), or the fetch succeeds, or the trailing partial chunk
`{floor(size,chunkSize), size-1}` is cached.  (When `size` is not chunk
aligned, that chunk is uncached and the fetcher fails, `ReadAt` instead
surfaces the fetch error — see the counterexample.)  In all non-error
cases the buffer is returned unchanged. -/
theorem readAt_boundary_offsets (b : BlobState) (dst : Int → Byte)
    (plen offset : Int) (hclosed : b.closed = false) (hplen : 0 < plen)
    (hc : 0 < b.chunkSize) (hsize : 0 ≤ b.size) :
    (offset > b.size → readAtOp b dst plen offset = .ok (dst, 0)) ∧
    (offset = b.size →
      (Int.tmod b.size b.chunkSize = 0 ∨ b.fetcher.fetchOK = true ∨
        (b.cache { b := floor b.size b.chunkSize, e := b.size - 1 }).isSome = true) →
      readAtOp b dst plen offset = .ok (dst, 0)) := by
  have hcl : ¬(b.closed = true) := by rw [hclosed]; simp
  constructor
  · intro hgt
    unfold readAtOp
    rw [if_neg hcl, if_pos (Or.inr hgt)]
  · rintro rfl hcond
    unfold readAtOp
    rw [if_neg hcl, if_neg (by rintro (h | h) <;> omega)]
    have hadj : adjustBufferSize b.size plen b.size = 0 := by
      unfold adjustBufferSize
      split_ifs <;> omega
    have halign : Int.tmod (floor b.size b.chunkSize) b.chunkSize = 0 :=
      Int.tmod_eq_zero_of_dvd (dvd_floor _ _)
    have hflo : floor b.size b.chunkSize ≤ b.size := floor_le hsize hc
    have hfhi : b.size < floor b.size b.chunkSize + b.chunkSize := lt_floor_add hsize hc
    have hlt : b.size + plen - 1 < ceil (b.size + plen - 1) b.chunkSize :=
      lt_ceil _ hc
    by_cases htm : Int.tmod b.size b.chunkSize = 0
    · have hfl : floor b.size b.chunkSize = b.size :=
        floor_of_dvd hc.ne' (Int.dvd_of_tmod_eq_zero htm)
      have hcount : walkCount b.chunkSize b.size
          ⟨floor b.size b.chunkSize, ceil (b.size + plen - 1) b.chunkSize - 1⟩ = 0 := by
        have h0 : ¬0 < walkCountFrom b.chunkSize b.size (floor b.size b.chunkSize)
            (ceil (b.size + plen - 1) b.chunkSize - 1) := by
          intro hcontra
          have := (lt_walkCountFrom_iff hc b.size (floor b.size b.chunkSize)
            (ceil (b.size + plen - 1) b.chunkSize - 1) 0).mp hcontra
          push_cast at this
          omega
        unfold walkCount
        dsimp only
        omega
      rw [walkChunksList_ok hc halign, hcount]
      dsimp only
      simp only [List.range_zero, List.map_nil]
      simp only [prepareChunksForRead, List.foldl_nil]
      unfold fetchRangeModel
      rw [if_pos rfl, hadj]
    · have hfne : floor b.size b.chunkSize ≠ b.size := by
        intro he
        exact htm (he ▸ halign)
      have hcount : walkCount b.chunkSize b.size
          ⟨floor b.size b.chunkSize, ceil (b.size + plen - 1) b.chunkSize - 1⟩ = 1 := by
        have hA : 0 < walkCountFrom b.chunkSize b.size (floor b.size b.chunkSize)
            (ceil (b.size + plen - 1) b.chunkSize - 1) := by
          apply (lt_walkCountFrom_iff hc b.size (floor b.size b.chunkSize)
            (ceil (b.size + plen - 1) b.chunkSize - 1) 0).mpr
          push_cast
          omega
        have hB : ¬1 < walkCountFrom b.chunkSize b.size (floor b.size b.chunkSize)
            (ceil (b.size + plen - 1) b.chunkSize - 1) := by
          intro hcontra
          have := (lt_walkCountFrom_iff hc b.size (floor b.size b.chunkSize)
            (ceil (b.size + plen - 1) b.chunkSize - 1) 1).mp hcontra
          push_cast at this
          omega
        unfold walkCount
        dsimp only
        omega
      have hcheq : chunkAt b.chunkSize b.size (floor b.size b.chunkSize) =
          { b := floor b.size b.chunkSize, e := b.size - 1 } := by
        unfold chunkAt
        simp only [region.mk.injEq]
        refine ⟨trivial, ?_⟩
        split <;> omega
      rw [walkChunksList_ok hc halign, hcount]
      dsimp only
      have hmap : List.map (fun k : Nat =>
          chunkAt b.chunkSize b.size
            (floor b.size b.chunkSize + (k : Int) * b.chunkSize)) (List.range 1) =
          [{ b := floor b.size b.chunkSize, e := b.size - 1 }] := by
        rw [← hcheq]
        simp [List.range_succ]
      rw [hmap]
      have hexp : chunkExpected b.size plen
          { b := floor b.size b.chunkSize, e := b.size - 1 } = 0 := by
        simp only [chunkExpected, chunkUpper, chunkLower, region.size, positive_eq_max]
        omega
      rcases hcond with htm0 | hrest
      · exact absurd htm0 htm
      · cases hcc : b.cache { b := floor b.size b.chunkSize, e := b.size - 1 } with
        | some entry =>
          simp only [prepareChunksForRead, List.foldl_cons, List.foldl_nil, prepareChunk]
          unfold readFromCache
          rw [hcc]
          dsimp only
          rw [if_pos (by rw [hexp]; exact positive_nonneg _), hexp,
            writeSeg_of_nonpos (by omega)]
          unfold fetchRangeModel
          rw [if_pos rfl, hadj]
        | none =>
          have hfok : b.fetcher.fetchOK = true := by
            rcases hrest with hfok | hsome
            · exact hfok
            · rw [hcc] at hsome
              cases hsome
          simp only [prepareChunksForRead, List.foldl_cons, List.foldl_nil, prepareChunk]
          unfold readFromCache
          rw [hcc]
          dsimp only
          unfold fetchRangeModel
          rw [if_neg (by simp), hfok, if_pos rfl]
          simp only [List.nil_append, List.foldl_cons, List.foldl_nil]
          rw [applyFetchedChunk_of_nonpos (le_of_eq hexp), hadj]

/-- `blob.Size` (blob.go lines 165-167): returns the immutable size.  Note
the Go signature `Size() int64` has no error return and the body performs
no closed-check. -/
def sizeOp (b : BlobState) : Int := b.size

/-- Modelled from the spec: `regionSet.totalSize()` (the region-set
implementation lives outside the provided sources; per section 3 it is a
set of disjoint regions whose total size is the sum of the region sizes). -/
def totalSize (rs : List region) : Int :=
  rs.foldl (fun acc r => acc + r.size) 0

/-- `blob.FetchedSize` (blob.go lines 169-174): returns
`fetchedRegionSet.totalSize()`.  No error return, no closed-check. -/
def fetchedSizeOp (b : BlobState) : Int := totalSize b.fetchedRegions

/-- `blob.Check` (blob.go lines 137-163) at monotonic time `now`: returns
whether the liveness probe `fetcher.check()` was invoked, the new blob
state, and the error if any. -/
def checkOp (b : BlobState) (now : Int) : Bool × BlobState × Option BlobErr :=
  if b.closed then (false, b, some .blobClosed)
  else if now - b.lastCheck < b.checkInterval then (false, b, none)
  else if b.fetcher.checkOK then (true, { b with lastCheck := now }, none)
  else (true, b, some .checkFailed)

/-- `blob.Refresh` (blob.go lines 112-135): the resolver outcome is passed
in as `resolved` (a new fetcher and its reported size, or a resolution
error).  Returns the new blob state and the error if any. -/
def refreshOp (b : BlobState) (resolved : Except Unit (FetcherModel × Int))
    (now : Int) : BlobState × Option BlobErr :=
  if b.closed then (b, some .blobClosed)
  else
    match resolved with
    | .error _ => (b, some .resolveFailed)
    | .ok (f, newSize) =>
        if newSize ≠ b.size then (b, some .sizeMismatch)
        else ({ b with fetcher := f, lastCheck := now }, none)

/-- `fetchRange` (blob.go lines 382-402) when all destination writers are
`io.Discard` (the `Cache` path): success iff nothing is missing or the
fetch succeeds. -/
def fetchRangeDiscard (b : BlobState) (misses : List region) :
    Except BlobErr Unit :=
  if misses = [] then .ok ()
  else if b.fetcher.fetchOK then .ok () else .error .fetchFailed

/-- `blob.cacheAt` (blob.go lines 187-203): walk the aligned region,
skip cached chunks, register `io.Discard` writers for the misses, and
invoke `fetchRange`. -/
def cacheAtOp (b : BlobState) (offset size_ : Int) : Except BlobErr Unit :=
  match walkChunksList b.chunkSize b.size
      ⟨floor offset b.chunkSize, ceil (offset + size_ - 1) b.chunkSize - 1⟩ with
  | .error err => .error err
  | .ok chunks => fetchRangeDiscard b (chunks.filter fun ch => (b.cache ch).isNone)

/-- The window loop of `blob.Cache` (blob.go lines 227-236):
`for i := offset; i < end; i += fetchSize`, each window clamped to `end`.
Structural recursion on an explicit iteration bound. -/
def cacheWindowsLoop : Nat → Int → Int → Int → List (Int × Int)
  | 0, _, _, _ => []
  | fuel + 1, i, stop, fetchSize =>
    if i < stop then
      (i, if i + fetchSize > stop then stop - i else fetchSize) ::
        cacheWindowsLoop fuel (i + fetchSize) stop fetchSize
    else []

/-- `blob.Cache` (blob.go lines 205-239): closed check; a single `cacheAt`
when `prefetchChunkSize ≤ chunkSize`, else one `cacheAt` per window of
`fetchSize = chunkSize * (prefetchChunkSize / chunkSize)` bytes (the
errgroup is modelled by sequencing the windows and surfacing the first
error). -/
def cacheOp (b : BlobState) (offset size_ : Int) : Except BlobErr Unit :=
  if b.closed then .error .blobClosed
  else if b.prefetchChunkSize ≤ b.chunkSize then cacheAtOp b offset size_
  else
    (cacheWindowsLoop size_.toNat offset (offset + size_)
        (b.chunkSize * Int.tdiv b.prefetchChunkSize b.chunkSize)).foldl
      (fun acc w =>
        match acc with
        | .error err => .error err
        | .ok () => cacheAtOp b w.1 w.2)
      (.ok ())

/-- A concrete already-closed blob used by the C3 results. -/
def closedSampleBlob : BlobState :=
  { size := 10, chunkSize := 3, prefetchChunkSize := 0,
    fetcher := { content := fun _ => 0, fetchOK := true, checkOK := true },
    cache := fun _ => none, fetchedRegions := [⟨0, 2⟩], lastCheck := 0,
    checkInterval := 5, closed := true }

/-- `blob.ReadAt`'s closed-check wrapper is part of `readAtOp` above;
`Refresh` and `Check` wrappers are `refreshOp` / `checkOp`.  C3
counterexample: for a concrete closed blob, `Size()` does not fail with
`BlobClosed` — it has no error channel at all and still returns the stored
size (and `FetchedSize()` likewise returns the stored total), refuting the
claim that every public operation fails after `Close`. -/
theorem size_after_close_returns_size_cex :
    closedSampleBlob.closed = true ∧ sizeOp closedSampleBlob = 10 ∧
    fetchedSizeOp closedSampleBlob = 3 := by
  refine ⟨rfl, rfl, rfl⟩

/-- C3 (amended): after `Close()` returns, every subsequent invocation of
`Check`, `ReadAt`, `Cache` and `Refresh` fails with the `BlobClosed`
error; `Size` and `FetchedSize` do not fail — they have no error channel
and keep returning the stored size and fetched total. -/
theorem closed_blob_ops_fail (b : BlobState) (hclosed : b.closed = true)
    (now : Int) (dst : Int → Byte) (plen offset csize : Int)
    (resolved : Except Unit (FetcherModel × Int)) :
    checkOp b now = (false, b, some .blobClosed) ∧
    readAtOp b dst plen offset = .error .blobClosed ∧
    cacheOp b offset csize = .error .blobClosed ∧
    refreshOp b resolved now = (b, some .blobClosed) ∧
    sizeOp b = b.size ∧
    fetchedSizeOp b = totalSize b.fetchedRegions := by
  refine ⟨?_, ?_, ?_, ?_, rfl, rfl⟩
  · unfold checkOp
    rw [if_pos hclosed]
  · unfold readAtOp
    rw [if_pos hclosed]
  · unfold cacheOp
    rw [if_pos hclosed]
  · unfold refreshOp
    rw [if_pos hclosed]

theorem closed_blob_ops_fail_witness :
    checkOp closedSampleBlob 7 = (false, closedSampleBlob, some .blobClosed) ∧
    readAtOp closedSampleBlob (fun _ => 0) 4 1 = .error .blobClosed ∧
    cacheOp closedSampleBlob 1 4 = .error .blobClosed ∧
    refreshOp closedSampleBlob (.error ()) 7 = (closedSampleBlob, some .blobClosed) ∧
    sizeOp closedSampleBlob = closedSampleBlob.size ∧
    fetchedSizeOp closedSampleBlob = totalSize closedSampleBlob.fetchedRegions :=
  closed_blob_ops_fail closedSampleBlob rfl 7 (fun _ => 0) 4 1 4 (.error ())

theorem prepareChunks_slice_bounds_witness :
    (0 : Int) < sampleBlob.chunkSize ∧ (0 : Int) ≤ 1 ∧ (1 : Int) ≤ sampleBlob.size ∧
    (0 : Int) < 4 ∧
    ((∀ chunks, walkChunksList sampleBlob.chunkSize sampleBlob.size
        ⟨floor 1 sampleBlob.chunkSize,
          ceil (1 + 4 - 1) sampleBlob.chunkSize - 1⟩ = .ok chunks →
      ∀ ch ∈ chunks, 0 ≤ chunkBase 1 ch ∧ 0 ≤ chunkExpected 1 4 ch ∧
        chunkBase 1 ch + chunkExpected 1 4 ch ≤ 4) ∧
    (walkChunksList 3 10 ⟨floor (-5) 3, ceil (-5 + 1 - 1) 3 - 1⟩ =
        .ok [{ b := -3, e := -1 }] ∧
      chunkExpected (-5) 1 { b := -3, e := -1 } = -1)) :=
  ⟨by decide, by decide, by decide, by decide,
   prepareChunks_slice_bounds sampleBlob 4 1 (by decide) (by decide) (by decide)
     (by decide)⟩

theorem readAt_boundary_offsets_witness :
    sampleBlob.closed = false ∧ (0 : Int) < 1 ∧ (0 : Int) < sampleBlob.chunkSize ∧
    (0 : Int) ≤ sampleBlob.size ∧
    (((10 : Int) > sampleBlob.size →
      readAtOp sampleBlob (fun _ => 0) 1 10 = .ok (fun _ => 0, 0)) ∧
    ((10 : Int) = sampleBlob.size →
      (Int.tmod sampleBlob.size sampleBlob.chunkSize = 0 ∨
        sampleBlob.fetcher.fetchOK = true ∨
        (sampleBlob.cache (region.mk (floor sampleBlob.size sampleBlob.chunkSize)
          (sampleBlob.size - 1))).isSome = true) →
      readAtOp sampleBlob (fun _ => 0) 1 10 = .ok (fun _ => 0, 0))) :=
  ⟨rfl, by decide, by decide, by decide,
   readAt_boundary_offsets sampleBlob (fun _ => 0) 1 10 rfl (by decide) (by decide)
     (by decide)⟩

/-- C6: on an open blob, `Check()` invokes `fetcher.check()` exactly when
`now - lastCheck ≥ checkInterval` (otherwise it returns success without
probing and leaves the state unchanged), and `lastCheck` advances to `now`
exactly when the probe succeeds: on probe failure the state (hence
`lastCheck`) is unchanged and the error is surfaced, so the next `Check`
past the interval probes again. -/
theorem check_throttles_probe (b : BlobState) (now : Int)
    (hclosed : b.closed = false) :
    ((checkOp b now).1 = true ↔ b.checkInterval ≤ now - b.lastCheck) ∧
    (now - b.lastCheck < b.checkInterval → checkOp b now = (false, b, none)) ∧
    (b.checkInterval ≤ now - b.lastCheck → b.fetcher.checkOK = true →
      checkOp b now = (true, { b with lastCheck := now }, none)) ∧
    (b.checkInterval ≤ now - b.lastCheck → b.fetcher.checkOK = false →
      checkOp b now = (true, b, some .checkFailed)) := by
  have hcl : ¬(b.closed = true) := by rw [hclosed]; simp
  unfold checkOp
  rw [if_neg hcl]
  refine ⟨?_, ?_, ?_, ?_⟩
  · constructor
    · intro h
      by_contra hlt
      rw [if_pos (by omega)] at h
      cases h
    · intro h
      rw [if_neg (by omega)]
      split <;> rfl
  · intro h
    rw [if_pos h]
  · intro h hok
    rw [if_neg (by omega), if_pos hok]
  · intro h hok
    rw [if_neg (by omega), if_neg (by rw [hok]; simp)]

theorem check_throttles_probe_witness :
    sampleBlob.closed = false ∧
    (((checkOp sampleBlob 7).1 = true ↔
      sampleBlob.checkInterval ≤ 7 - sampleBlob.lastCheck) ∧
    (7 - sampleBlob.lastCheck < sampleBlob.checkInterval →
      checkOp sampleBlob 7 = (false, sampleBlob, none)) ∧
    (sampleBlob.checkInterval ≤ 7 - sampleBlob.lastCheck →
      sampleBlob.fetcher.checkOK = true →
      checkOp sampleBlob 7 = (true, { sampleBlob with lastCheck := 7 }, none)) ∧
    (sampleBlob.checkInterval ≤ 7 - sampleBlob.lastCheck →
      sampleBlob.fetcher.checkOK = false →
      checkOp sampleBlob 7 = (true, sampleBlob, some .checkFailed))) :=
  ⟨rfl, check_throttles_probe sampleBlob 7 rfl⟩

/-- C7: on an open blob, when the resolver returns a fetcher whose
reported size differs from the blob's size, `Refresh` fails with the
size-mismatch error and the blob state is entirely unchanged — in
particular the `fetcher` field and `lastCheck` keep their prior values and
`Size()` still returns the original size. -/
theorem refresh_size_mismatch_keeps_state (b : BlobState)
    (hclosed : b.closed = false) (f : FetcherModel) (newSize now : Int)
    (hne : newSize ≠ b.size) :
    refreshOp b (.ok (f, newSize)) now = (b, some .sizeMismatch) ∧
    (refreshOp b (.ok (f, newSize)) now).1.fetcher = b.fetcher ∧
    (refreshOp b (.ok (f, newSize)) now).1.lastCheck = b.lastCheck ∧
    sizeOp (refreshOp b (.ok (f, newSize)) now).1 = b.size := by
  have hcl : ¬(b.closed = true) := by rw [hclosed]; simp
  have h : refreshOp b (.ok (f, newSize)) now = (b, some .sizeMismatch) := by
    unfold refreshOp
    rw [if_neg hcl]
    dsimp only
    rw [if_pos hne]
  exact ⟨h, by rw [h], by rw [h], by rw [h]; rfl⟩

theorem refresh_size_mismatch_keeps_state_witness :
    sampleBlob.closed = false ∧ (11 : Int) ≠ sampleBlob.size ∧
    (refreshOp sampleBlob
        (.ok ({ content := fun _ => 0, fetchOK := true, checkOK := true }, 11)) 7 =
      (sampleBlob, some .sizeMismatch) ∧
    (refreshOp sampleBlob
        (.ok ({ content := fun _ => 0, fetchOK := true, checkOK := true }, 11)) 7).1.fetcher =
      sampleBlob.fetcher ∧
    (refreshOp sampleBlob
        (.ok ({ content := fun _ => 0, fetchOK := true, checkOK := true }, 11)) 7).1.lastCheck =
      sampleBlob.lastCheck ∧
    sizeOp (refreshOp sampleBlob
        (.ok ({ content := fun _ => 0, fetchOK := true, checkOK := true }, 11)) 7).1 =
      sampleBlob.size) :=
  ⟨rfl, by decide,
   refresh_size_mismatch_keeps_state sampleBlob rfl
     { content := fun _ => 0, fetchOK := true, checkOK := true } 11 7 (by decide)⟩

/-- The retry recursion of `fetchRange` (blob.go lines 393-399): after the
singleflight `Do`, when the result was shared, succeeded, and the
subsequent cache re-read (`handleSharedFetch`) failed, the code calls
`b.fetchRange(allData, opts)` again with the same arguments.  `env n`
tells whether attempt `n` ends in that shared-success-with-failed-re-read
state; the oracle abstracts the concurrent environment (other in-flight
callers under the same singleflight key, and cache evictions between the
commit and the re-read).  `fetchRangeAttempts env fuel n` follows the
recursion from attempt `n` and returns the index of the attempt at which
the recursion exits — i.e. the number of retries a call tree performs —
when it exits within `fuel` attempts (`none` otherwise). -/
def fetchRangeAttempts : (Nat → Bool) → Nat → Nat → Option Nat
  | _, 0, _ => none
  | env, fuel + 1, n =>
    if env n then fetchRangeAttempts env fuel (n + 1) else some n

/-- Helper: against an environment producing exactly `k` consecutive
shared-success-with-failed-re-read outcomes, the call tree performs
exactly `k` retries. -/
theorem fetchRangeAttempts_count (k : Nat) :
    ∀ (fuel n : Nat), n ≤ k → k - n < fuel →
      fetchRangeAttempts (fun m => decide (m < k)) fuel n = some k
  | 0, n, _, hf => absurd hf (by omega)
  | fuel + 1, n, hn, hf => by
    unfold fetchRangeAttempts
    by_cases h : n < k
    · rw [if_pos (by simpa using h)]
      exact fetchRangeAttempts_count k fuel (n + 1) (by omega) (by omega)
    · rw [if_neg (by simpa using h)]
      have hnk : n = k := by omega
      rw [hnk]

/-- C4: the code does not bound the shared-result retry of `fetchRange` to
one per call tree.  When two consecutive attempts both end in a shared
result whose cache re-read fails, the recursion performs 2 retries,
exceeding the claimed bound of one; in general the retry count equals the
number of consecutive such outcomes and is unbounded. -/
theorem fetchRange_retry_unbounded :
    fetchRangeAttempts (fun n => decide (n < 2)) 3 0 = some 2 ∧ ¬(2 : Nat) ≤ 1 ∧
    ∀ k : Nat, fetchRangeAttempts (fun n => decide (n < k)) (k + 1) 0 = some k := by
  refine ⟨rfl, by omega, ?_⟩
  intro k
  exact fetchRangeAttempts_count k (k + 1) 0 (by omega) (by omega)

/-- The packet list `ps` carries the bytes of abstract stream `S` starting
at stream position `t`. -/
def packetsMatch (S : Int → Byte) : Int → List ((Int → Byte) × Int) → Prop
  | _, [] => True
  | t, (p, m) :: rest =>
      0 ≤ m ∧ (∀ k, 0 ≤ k → k < m → p k = S (t + k)) ∧ packetsMatch S (t + m) rest

/-- Total number of stream bytes carried by a packet list. -/
def streamLen : List ((Int → Byte) × Int) → Int
  | [] => 0
  | (_, m) :: rest => m + streamLen rest

/-- One `bytesWriter.Write` of a packet matching stream positions
`[t, t+m)` advances the cursor by `m` and extends the overwritten prefix
of the window accordingly, for every split point: the final buffer depends
only on the stream, not on the packet boundaries. -/
theorem bytesWriter_write_step (S : Int → Byte) (o nlen t m : Int)
    (p : Int → Byte) (ho : 0 ≤ o) (hm : 0 ≤ m)
    (hp : ∀ k, 0 ≤ k → k < m → p k = S (t + k))
    (dest0 dest : Int → Byte)
    (hdest : ∀ i, dest i =
      if 0 ≤ i ∧ i < nlen ∧ o + i < t then S (o + i) else dest0 i) :
    (bytesWriter.write
        { dest := dest, destLen := nlen, destOff := o, current := t } p m).current
      = t + m ∧
    ∀ i, (bytesWriter.write
        { dest := dest, destLen := nlen, destOff := o, current := t } p m).dest i =
      if 0 ≤ i ∧ i < nlen ∧ o + i < t + m then S (o + i) else dest0 i := by
  have hmax1 := positive_eq_max (t - o)
  have hmax2 := positive_eq_max (o - t)
  have hmax3 := positive_eq_max (o + nlen - t)
  unfold bytesWriter.write
  dsimp only
  by_cases hA : positive (t - o) > nlen
  · rw [if_pos hA]
    refine ⟨rfl, fun i => ?_⟩
    dsimp only
    rw [hdest i]
    by_cases h1 : 0 ≤ i ∧ i < nlen ∧ o + i < t
    · rw [if_pos h1, if_pos ⟨h1.1, h1.2.1, by omega⟩]
    · rw [if_neg h1, if_neg (fun h2 => h1 ⟨h2.1, h2.2.1, by omega⟩)]
  · rw [if_neg hA]
    by_cases hB : positive (o - t) ≥ m
    · rw [if_pos hB]
      refine ⟨rfl, fun i => ?_⟩
      dsimp only
      rw [hdest i]
      by_cases h1 : 0 ≤ i ∧ i < nlen ∧ o + i < t
      · rw [if_pos h1, if_pos ⟨h1.1, h1.2.1, by omega⟩]
      · rw [if_neg h1, if_neg (fun h2 => h1 ⟨h2.1, h2.2.1, by omega⟩)]
    · rw [if_neg hB]
      refine ⟨rfl, fun i => ?_⟩
      unfold goCopy
      dsimp only
      by_cases hE : positive (o + nlen - t) > m
      · rw [if_pos hE]
        by_cases hcopy : positive (t - o) ≤ i ∧
            i < positive (t - o) +
              min (nlen - positive (t - o)) (m - positive (o - t))
        · rw [if_pos hcopy]
          rw [hp (positive (o - t) + (i - positive (t - o))) (by omega) (by omega)]
          rw [if_pos (by constructor; omega; constructor; omega; omega)]
          congr 1
          omega
        · rw [if_neg hcopy, hdest i]
          by_cases h1 : 0 ≤ i ∧ i < nlen ∧ o + i < t
          · rw [if_pos h1, if_pos ⟨h1.1, h1.2.1, by omega⟩]
          · rw [if_neg h1, if_neg (fun h2 => h1 ⟨h2.1, h2.2.1, by omega⟩)]
      · rw [if_neg hE]
        by_cases hcopy : positive (t - o) ≤ i ∧
            i < positive (t - o) +
              min (nlen - positive (t - o))
                (positive (o + nlen - t) - positive (o - t))
        · rw [if_pos hcopy]
          rw [hp (positive (o - t) + (i - positive (t - o))) (by omega) (by omega)]
          rw [if_pos (by constructor; omega; constructor; omega; omega)]
          congr 1
          omega
        · rw [if_neg hcopy, hdest i]
          by_cases h1 : 0 ≤ i ∧ i < nlen ∧ o + i < t
          · rw [if_pos h1, if_pos ⟨h1.1, h1.2.1, by omega⟩]
          · rw [if_neg h1, if_neg (fun h2 => h1 ⟨h2.1, h2.2.1, by omega⟩)]

/-- `io.CopyN` may deliver one chunk's bytes through any number of `Write`
calls; the resulting window contents depend only on the concatenated
stream.  In particular, feeding the packets one by one yields exactly the
state a single `Write` of the whole stream yields, which justifies the
single-write model used in `applyFetchedChunk`. -/
theorem bytesWriter_writeAll_spec (S : Int → Byte) (o nlen : Int) (ho : 0 ≤ o)
    (dest0 : Int → Byte) :
    ∀ (ps : List ((Int → Byte) × Int)) (t : Int) (dest : Int → Byte),
      packetsMatch S t ps →
      (∀ i, dest i =
        if 0 ≤ i ∧ i < nlen ∧ o + i < t then S (o + i) else dest0 i) →
      (bytesWriter.writeAll
          { dest := dest, destLen := nlen, destOff := o, current := t } ps).current
        = t + streamLen ps ∧
      ∀ i, (bytesWriter.writeAll
          { dest := dest, destLen := nlen, destOff := o, current := t } ps).dest i =
        if 0 ≤ i ∧ i < nlen ∧ o + i < t + streamLen ps then S (o + i) else dest0 i
  | [], t, dest, _, hdest => by
    unfold bytesWriter.writeAll
    simp only [List.foldl_nil]
    refine ⟨by unfold streamLen; omega, fun i => ?_⟩
    rw [hdest i]
    unfold streamLen
    by_cases h1 : 0 ≤ i ∧ i < nlen ∧ o + i < t
    · rw [if_pos h1, if_pos ⟨h1.1, h1.2.1, by omega⟩]
    · rw [if_neg h1, if_neg (fun h2 => h1 ⟨h2.1, h2.2.1, by omega⟩)]
  | (p, m) :: rest, t, dest, hmatch, hdest => by
    obtain ⟨hm, hp, hrest⟩ := hmatch
    obtain ⟨hcur, hdest1⟩ :=
      bytesWriter_write_step S o nlen t m p ho hm hp dest0 dest hdest
    unfold bytesWriter.writeAll
    simp only [List.foldl_cons]
    have hbw : bytesWriter.write
        { dest := dest, destLen := nlen, destOff := o, current := t } p m =
        { dest := (bytesWriter.write
            { dest := dest, destLen := nlen, destOff := o, current := t } p m).dest,
          destLen := nlen, destOff := o, current := t + m } := by
      unfold bytesWriter.write
      dsimp only
      split_ifs <;> rfl
    rw [hbw]
    have := bytesWriter_writeAll_spec S o nlen ho dest0 rest (t + m)
      (bytesWriter.write
        { dest := dest, destLen := nlen, destOff := o, current := t } p m).dest
      hrest hdest1
    unfold bytesWriter.writeAll at this
    have hsl : streamLen ((p, m) :: rest) = m + streamLen rest := rfl
    refine ⟨?_, fun i => ?_⟩
    · rw [this.1, hsl]
      ring
    · rw [this.2 i, hsl, add_assoc t m (streamLen rest)]
